import Mathlib

set_option maxHeartbeats 1000000

/-!
Shallow embedding of the file-validation and image-collection logic of the
product-catalog repository: the signature-based duplicate detection and
validation pipeline (lib/fileValidation) and the image-collection state
machine of the ProductImageManager component.
-/

/-- A candidate file as the browser presents it: name, byte size, MIME type
and last-modified epoch-millisecond timestamp. -/
structure File where
  name : String
  size : Nat
  type : String
  lastModified : Int
deriving DecidableEq

/-- The weak file-identity signature: the four metadata fields joined
with a pipe, as in createFileSignature. -/
def createFileSignature (f : File) : String :=
  f.name ++ "|" ++ toString f.size ++ "|" ++ f.type ++ "|" ++ toString f.lastModified

/-- One byte rendered as lowercase hex, padded to two characters
(toString 16 and padStart 2 with zero). -/
def hexByte (b : Nat) : String :=
  let s := String.mk (Nat.toDigits 16 b)
  if s.length < 2 then "0" ++ s else s

/-- generateFileHash: hex-encodes the digest of the file content when the
digest primitive succeeds, and falls back to the weak identity signature
when it fails (the try-catch in the source).  The fallible digest primitive
(arrayBuffer plus crypto.subtle.digest) is passed as a function returning
its byte list, none modelling a thrown error. -/
def generateFileHash (digest : File → Option (List Nat)) (f : File) : String :=
  match digest f with
  | some bytes => String.join (bytes.map hexByte)
  | none => createFileSignature f

/-- The substring of a MIME type before the first slash (JS split on the
slash, first element): the characters up to the first slash, the whole
string when there is none. -/
def splitHead (t : String) : String :=
  String.mk (t.data.takeWhile (fun c => c != '/'))

/-- JS String.startsWith: the candidate begins with the given string. -/
def startsWithStr (s p : String) : Bool :=
  p.data.isPrefixOf s.data

/-- The type check of validateFiles: some allowed entry is either a
leading substring (startsWith of the part before the slash) of the
candidate type or equal to it. -/
def typeAllowed (allowedTypes : List String) (t : String) : Bool :=
  allowedTypes.any (fun a => startsWithStr t (splitHead a) || t == a)

/-- The classification result of validateFiles: accepted files, duplicate
names, and invalid entries as name-reason pairs. -/
structure FileValidationResult where
  validFiles : List File
  duplicates : List String
  invalid : List (String × String)
deriving DecidableEq

/-- The size-limit rejection reason string of the source. -/
def sizeReason (maxFileSize : Nat) : String :=
  "Tamanho excede " ++ toString maxFileSize ++ "MB"

/-- The type rejection reason string of the source. -/
def typeReason : String :=
  "Tipo de arquivo não permitido"

/-- One iteration of the validateFiles loop: the ordered checks (size,
type, duplicate against existing, duplicate within batch) with first match
winning; acceptance records the signature in the batch-local set and
appends the file. -/
def validateStep (maxFileSize : Nat) (allowedTypes : List String)
    (existingSignatures : List String)
    (acc : FileValidationResult × List String) (f : File) :
    FileValidationResult × List String :=
  let r := acc.1
  let processed := acc.2
  let sig := createFileSignature f
  if f.size > maxFileSize * 1024 * 1024 then
    ({ r with invalid := r.invalid ++ [(f.name, sizeReason maxFileSize)] }, processed)
  else if !typeAllowed allowedTypes f.type then
    ({ r with invalid := r.invalid ++ [(f.name, typeReason)] }, processed)
  else if existingSignatures.contains sig then
    ({ r with duplicates := r.duplicates ++ [f.name] }, processed)
  else if processed.contains sig then
    ({ r with duplicates := r.duplicates ++ [f.name] }, processed)
  else
    ({ r with validFiles := r.validFiles ++ [f] }, processed ++ [sig])

/-- The default allowed-types option of validateFiles. -/
def defaultAllowedTypes : List String :=
  ["image/png", "image/jpeg", "image/webp", "image/jpg"]

/-- validateFiles: folds the per-file classification over the batch,
starting from empty buckets and an empty batch-local signature set, with
the existing signatures computed from the existing files. -/
def validateFiles (files : List File) (maxFileSize : Nat)
    (allowedTypes : List String) (existingFiles : List File) :
    FileValidationResult :=
  let existingSignatures := existingFiles.map createFileSignature
  (files.foldl (validateStep maxFileSize allowedTypes existingSignatures)
    (⟨[], [], []⟩, [])).1

/-- areFilesIdentical: equality of the weak signatures. -/
def areFilesIdentical (f1 f2 : File) : Bool :=
  createFileSignature f1 == createFileSignature f2

/-- Lookup in an insertion-ordered string-keyed map (JS Map.get with a
default of the empty list, as the source's get-or-empty). -/
def mapGetD (m : List (String × List File)) (k : String) : List File :=
  match m.find? (fun p => p.1 == k) with
  | some p => p.2
  | none => []

/-- Insertion-ordered update (JS Map.set): overwrite in place when the key
exists, append otherwise. -/
def mapSet (m : List (String × List File)) (k : String) (v : List File) :
    List (String × List File) :=
  if m.any (fun p => p.1 == k) then
    m.map (fun p => if p.1 == k then (k, v) else p)
  else
    m ++ [(k, v)]

/-- One iteration of the signatureMap loop of findDuplicatesInArray:
push the file onto its signature group (get-or-empty, push, set). -/
def sigStep (m : List (String × List File)) (f : File) :
    List (String × List File) :=
  let sig := createFileSignature f
  mapSet m sig (mapGetD m sig ++ [f])

/-- The signatureMap loop of findDuplicatesInArray: group the files by
signature in first-occurrence order, each group in input order. -/
def buildSignatureMap (files : List File) : List (String × List File) :=
  files.foldl sigStep []

/-- findDuplicatesInArray: keep only the signature groups with more than
one file. -/
def findDuplicatesInArray (files : List File) : List (String × List File) :=
  (buildSignatureMap files).filter (fun p => 1 < p.2.length)

/-- JS lastIndexOf for a single character: the largest index holding it,
minus one when absent. -/
def lastIndexOfChar (s : String) (c : Char) : Int :=
  match s.data.reverse.findIdx? (fun x => x == c) with
  | some i => ((s.data.length - 1 - i : Nat) : Int)
  | none => -1

/-- The JS unsigned-shift coercion x >>> 0: reduce modulo 2 to the 32 and
view as a non-negative number. -/
def toUint32 (i : Int) : Nat :=
  (i % (2 ^ 32 : Int)).toNat

/-- JS String.slice with only a non-negative start index: drop that many
leading characters (empty when the index reaches past the end). -/
def jsSliceFrom (s : String) (n : Nat) : String :=
  String.mk (s.data.drop n)

/-- getFileExtension: slice from (lastIndexOf dot minus one, coerced
unsigned) plus two, exactly the arithmetic of the source. -/
def getFileExtension (filename : String) : String :=
  jsSliceFrom filename (toUint32 (lastIndexOfChar filename '.' - 1) + 2)

/-- An entry of the image collection owned by ProductImageManager: id,
display url, optional pending source file, featured flag, and the media
kind (always the string image here). -/
structure MediaItem where
  id : String
  url : String
  file : Option File
  isFeatured : Bool
  mediaType : String
deriving DecidableEq

/-- The ids of a collection in order. -/
def idsOf (images : List MediaItem) : List String :=
  images.map MediaItem.id

/-- How many entries of a collection are featured. -/
def featuredCount (images : List MediaItem) : Nat :=
  (images.filter (fun img => img.isFeatured)).length

/-- setFeaturedImage: every entry's featured flag becomes the comparison
of its id with the requested id. -/
def setFeaturedImage (images : List MediaItem) (imageId : String) :
    List MediaItem :=
  images.map (fun img => { img with isFeatured := img.id == imageId })

/-- The promotion step of removeImage: mark the first remaining entry
featured in place. -/
def promoteFirst : List MediaItem → List MediaItem
  | [] => []
  | first :: rest => { first with isFeatured := true } :: rest

/-- removeImage: find the entry, keep the others, and when the removed
entry was featured and entries remain, promote the first remaining one. -/
def removeImage (images : List MediaItem) (imageId : String) :
    List MediaItem :=
  let imageToRemove := images.find? (fun img => img.id == imageId)
  let remainingImages := images.filter (fun img => img.id != imageId)
  if (imageToRemove.map MediaItem.isFeatured).getD false
      && !remainingImages.isEmpty then
    promoteFirst remainingImages
  else
    remainingImages

/-- JS Array.slice from index zero with an integer end bound: a negative
bound counts from the end of the array. -/
def jsSliceTo (l : List File) (e : Int) : List File :=
  if 0 ≤ e then l.take e.toNat
  else l.take ((l.length : Int) + e).toNat

/-- One freshly accepted entry of handleFileSelect: a generated id, an
allocated display url, the source file, and the featured flag claimed by
index zero of a batch entering an empty collection. -/
def mkMediaItem (mkId : Nat → String) (mkUrl : File → String)
    (collectionEmpty : Bool) (idx : Nat) (f : File) : MediaItem :=
  { id := mkId idx
    url := mkUrl f
    file := some f
    isFeatured := collectionEmpty && idx == 0
    mediaType := "image" }

/-- The indexed map over the accepted files building the new entries of
handleFileSelect. -/
def buildNewImages (mkId : Nat → String) (mkUrl : File → String)
    (collectionEmpty : Bool) (idx : Nat) : List File → List MediaItem
  | [] => []
  | f :: rest =>
      mkMediaItem mkId mkUrl collectionEmpty idx f ::
        buildNewImages mkId mkUrl collectionEmpty (idx + 1) rest

/-- How a handleFileSelect call ended: empty file list, re-entrancy
rejection, capacity failure before validation, or a completed validation
pass. -/
inductive AddOutcome where
  | noFiles
  | busy
  | capacityFailure
  | validated
deriving DecidableEq

/-- The observable effect of one handleFileSelect call: the outcome tag,
the resulting collection, and the batch handed to the validator when it
was invoked. -/
structure AddFilesResult where
  outcome : AddOutcome
  images : List MediaItem
  validatorInput : Option (List File)

/-- handleFileSelect: early return on an empty file list, re-entrancy
guard, capacity slice of the leading candidates, validation, and append
of the accepted entries (the first one featured only when the collection
was empty).  Fresh ids and display urls are supplied by the generator
arguments standing for uuid and createObjectURL. -/
def handleFileSelect (maxImages maxFileSize : Nat)
    (mkId : Nat → String) (mkUrl : File → String)
    (processing : Bool) (images : List MediaItem) (files : List File) :
    AddFilesResult :=
  if files.length == 0 then
    ⟨AddOutcome.noFiles, images, none⟩
  else if processing then
    ⟨AddOutcome.busy, images, none⟩
  else
    let filesToAdd := jsSliceTo files ((maxImages : Int) - (images.length : Int))
    if filesToAdd.length == 0 then
      ⟨AddOutcome.capacityFailure, images, none⟩
    else
      let existingFiles := images.filterMap MediaItem.file
      let validationResult :=
        validateFiles filesToAdd maxFileSize defaultAllowedTypes existingFiles
      if validationResult.validFiles.length == 0 then
        ⟨AddOutcome.validated, images, some filesToAdd⟩
      else
        let newImages :=
          buildNewImages mkId mkUrl (images.length == 0) 0
            validationResult.validFiles
        ⟨AddOutcome.validated, images ++ newImages, some filesToAdd⟩

/-- One operation of the image-collection state machine: an addFiles call
(with its fresh-id and url generators), a removal, or a set-featured
request. -/
inductive ManagerOp where
  | add (files : List File) (mkId : Nat → String) (mkUrl : File → String)
  | remove (id : String)
  | setFeatured (id : String)

/-- Apply one manager operation to a collection (each call runs to
completion, so the re-entrancy flag is down). -/
def applyOp (maxImages maxFileSize : Nat) :
    ManagerOp → List MediaItem → List MediaItem
  | ManagerOp.add files mkId mkUrl, images =>
      (handleFileSelect maxImages maxFileSize mkId mkUrl false images files).images
  | ManagerOp.remove id, images => removeImage images id
  | ManagerOp.setFeatured id, images => setFeaturedImage images id

/-- Apply a sequence of manager operations in order. -/
def applyOps (maxImages maxFileSize : Nat) (ops : List ManagerOp)
    (images : List MediaItem) : List MediaItem :=
  ops.foldl (fun s op => applyOp maxImages maxFileSize op s) images

/-- Side conditions of one operation: an add call draws its ids from an
injective generator whose range avoids the current ids (uuid freshness),
and a set-featured call names an id present in the collection. -/
def opOk (op : ManagerOp) (images : List MediaItem) : Prop :=
  match op with
  | ManagerOp.add _ mkId _ =>
      Function.Injective mkId ∧ ∀ n, mkId n ∉ idsOf images
  | ManagerOp.remove _ => True
  | ManagerOp.setFeatured id => id ∈ idsOf images

/-- Side conditions of a whole sequence, each operation judged in the
state it runs in. -/
def opsOk (maxImages maxFileSize : Nat) :
    List ManagerOp → List MediaItem → Prop
  | [], _ => True
  | op :: rest, images =>
      opOk op images ∧
        opsOk maxImages maxFileSize rest (applyOp maxImages maxFileSize op images)

/-- The single-featured invariant: no featured entry in an empty
collection, exactly one in a non-empty one. -/
def FeaturedInv (images : List MediaItem) : Prop :=
  featuredCount images = if images = [] then 0 else 1

/-- A collection entry with its featured flag lowered, for stating that
an operation changes nothing but featured flags. -/
def clearFeatured (img : MediaItem) : MediaItem :=
  { img with isFeatured := false }

/-- The input files bearing a given signature, in input order. -/
def sigFilter (files : List File) (sig : String) : List File :=
  files.filter (fun f => createFileSignature f == sig)

/-- Modelled from the spec wording of the type check, for comparison with
the code: the candidate type exactly matches an allowed entry or its part
before the slash equals the part before the slash of an allowed entry. -/
def specTypeAllowed (allowedTypes : List String) (t : String) : Bool :=
  allowedTypes.any (fun a => t == a || splitHead t == splitHead a)

/-- A file is accounted for by a classification result: it sits in the
accepted bucket, or its name sits in the duplicate or invalid bucket. -/
def inBuckets (r : FileValidationResult) (f : File) : Prop :=
  f ∈ r.validFiles ∨ f.name ∈ r.duplicates ∨ f.name ∈ r.invalid.map Prod.fst

/-! Concrete test data used by witnesses and counterexamples. -/

/-- A small png candidate. -/
def testPng : File := ⟨"a.png", 100, "image/png", 0⟩

/-- A small mp4 candidate, rejected by the default type list. -/
def testMp4 : File := ⟨"v.mp4", 100, "video/mp4", 0⟩

/-- A candidate whose MIME type begins with the letters image without its
slash-prefix being the word image. -/
def weirdFile : File := ⟨"x", 100, "imagexyz/png", 0⟩

/-- An id generator standing for uuid: distinct output for each index. -/
def idGen : Nat → String := fun n => String.mk (List.replicate n 'a')

/-- A display-url generator standing for createObjectURL. -/
def urlGen : File → String := fun _ => "blob"

/-! Validator lemmas. -/

/-- Each step of the validateFiles loop grows exactly one bucket by one
entry. -/
theorem validateStep_count (msf : Nat) (ats exs : List String)
    (acc : FileValidationResult × List String) (f : File) :
    (validateStep msf ats exs acc f).1.validFiles.length
      + (validateStep msf ats exs acc f).1.duplicates.length
      + (validateStep msf ats exs acc f).1.invalid.length
    = acc.1.validFiles.length + acc.1.duplicates.length
      + acc.1.invalid.length + 1 := by
  simp only [validateStep]
  repeat' split
  all_goals simp
  all_goals omega

/-- The fold of the validateFiles loop adds one bucket entry per input
file. -/
theorem validate_foldl_counts (msf : Nat) (ats exs : List String)
    (files : List File) :
    ∀ acc : FileValidationResult × List String,
      (files.foldl (validateStep msf ats exs) acc).1.validFiles.length
        + (files.foldl (validateStep msf ats exs) acc).1.duplicates.length
        + (files.foldl (validateStep msf ats exs) acc).1.invalid.length
      = acc.1.validFiles.length + acc.1.duplicates.length
        + acc.1.invalid.length + files.length := by
  induction files with
  | nil => intro acc; simp
  | cons f rest ih =>
      intro acc
      simp only [List.foldl_cons, List.length_cons]
      have h := ih (validateStep msf ats exs acc f)
      have h2 := validateStep_count msf ats exs acc f
      omega

/-- The file a step consumes lands in one of the buckets. -/
theorem validateStep_mem (msf : Nat) (ats exs : List String)
    (acc : FileValidationResult × List String) (f : File) :
    inBuckets (validateStep msf ats exs acc f).1 f := by
  simp only [validateStep, inBuckets]
  split
  · simp
  · split
    · simp
    · split
      · simp
      · split
        · simp
        · simp

/-- Buckets only grow along the loop: a file already accounted for stays
accounted for. -/
theorem validateStep_mono (msf : Nat) (ats exs : List String)
    (acc : FileValidationResult × List String) (g f : File)
    (h : inBuckets acc.1 f) : inBuckets (validateStep msf ats exs acc g).1 f := by
  simp only [validateStep, inBuckets] at h ⊢
  split
  · rcases h with h | h | h
    · exact Or.inl h
    · exact Or.inr (Or.inl h)
    · refine Or.inr (Or.inr ?_)
      simpa using Or.inl h
  · split
    · rcases h with h | h | h
      · exact Or.inl h
      · exact Or.inr (Or.inl h)
      · refine Or.inr (Or.inr ?_)
        simpa using Or.inl h
    · split
      · rcases h with h | h | h
        · exact Or.inl h
        · exact Or.inr (Or.inl (List.mem_append_left _ h))
        · exact Or.inr (Or.inr h)
      · split
        · rcases h with h | h | h
          · exact Or.inl h
          · exact Or.inr (Or.inl (List.mem_append_left _ h))
          · exact Or.inr (Or.inr h)
        · rcases h with h | h | h
          · exact Or.inl (List.mem_append_left _ h)
          · exact Or.inr (Or.inl h)
          · exact Or.inr (Or.inr h)

/-- Accountedness is preserved by the whole remaining loop. -/
theorem validate_foldl_mono (msf : Nat) (ats exs : List String)
    (files : List File) :
    ∀ (acc : FileValidationResult × List String) (f : File),
      inBuckets acc.1 f →
      inBuckets (files.foldl (validateStep msf ats exs) acc).1 f := by
  induction files with
  | nil => intro acc f h; exact h
  | cons g rest ih =>
      intro acc f h
      simp only [List.foldl_cons]
      exact ih _ f (validateStep_mono msf ats exs acc g f h)

/-- Every input file of the loop is accounted for by the final result. -/
theorem validate_foldl_mem (msf : Nat) (ats exs : List String)
    (files : List File) :
    ∀ (acc : FileValidationResult × List String) (f : File), f ∈ files →
      inBuckets (files.foldl (validateStep msf ats exs) acc).1 f := by
  induction files with
  | nil => intro acc f hf; cases hf
  | cons g rest ih =>
      intro acc f hf
      simp only [List.foldl_cons]
      rcases List.mem_cons.mp hf with rfl | hf
      · exact validate_foldl_mono msf ats exs rest _ f
          (validateStep_mem msf ats exs acc f)
      · exact ih _ f hf

/-- A single-file batch that passes every check is accepted. -/
theorem validateFiles_single_valid (f : File) (msf : Nat) (ats : List String)
    (exf : List File) (hs : ¬ f.size > msf * 1024 * 1024)
    (ht : typeAllowed ats f.type = true)
    (hd : createFileSignature f ∉ exf.map createFileSignature) :
    validateFiles [f] msf ats exf = ⟨[f], [], []⟩ := by
  simp [validateFiles, validateStep, hs, ht, List.contains, List.elem_eq_mem, hd]

/-- A single-file batch whose signature sits in the existing set is
classified duplicate. -/
theorem validateFiles_single_dup (f : File) (msf : Nat) (ats : List String)
    (exf : List File) (hs : ¬ f.size > msf * 1024 * 1024)
    (ht : typeAllowed ats f.type = true)
    (hd : createFileSignature f ∈ exf.map createFileSignature) :
    validateFiles [f] msf ats exf = ⟨[], [f.name], []⟩ := by
  simp [validateFiles, validateStep, hs, ht, List.contains, List.elem_eq_mem, hd]

/-- A single-file batch within the size limit but failing the type check
is classified invalid with the type reason. -/
theorem validateFiles_single_badtype (f : File) (msf : Nat) (ats : List String)
    (exf : List File) (hs : ¬ f.size > msf * 1024 * 1024)
    (ht : typeAllowed ats f.type = false) :
    validateFiles [f] msf ats exf = ⟨[], [], [(f.name, typeReason)]⟩ := by
  simp [validateFiles, validateStep, hs, ht]

/-- C3 (confirmed): the three output buckets of validateFiles form a
total partition of the input batch: the bucket sizes sum to the input
size, and every input candidate is accounted for by one of the buckets
(accepted files by membership, rejected ones by name). -/
theorem validateFiles_partition (files : List File) (msf : Nat)
    (ats : List String) (exf : List File) :
    (validateFiles files msf ats exf).validFiles.length
      + (validateFiles files msf ats exf).duplicates.length
      + (validateFiles files msf ats exf).invalid.length = files.length
    ∧ ∀ f ∈ files, inBuckets (validateFiles files msf ats exf) f := by
  constructor
  · have h := validate_foldl_counts msf ats (exf.map createFileSignature)
      files (⟨[], [], []⟩, [])
    simpa [validateFiles] using h
  · intro f hf
    have h := validate_foldl_mem msf ats (exf.map createFileSignature)
      files (⟨[], [], []⟩, []) f hf
    simpa [validateFiles] using h

/-- Witness for C3 on a concrete two-file batch. -/
theorem validateFiles_partition_witness :
    (validateFiles [testPng, testMp4] 5 defaultAllowedTypes []).validFiles.length
      + (validateFiles [testPng, testMp4] 5 defaultAllowedTypes []).duplicates.length
      + (validateFiles [testPng, testMp4] 5 defaultAllowedTypes []).invalid.length = 2
    ∧ inBuckets (validateFiles [testPng, testMp4] 5 defaultAllowedTypes []) testPng := by
  have h := validateFiles_partition [testPng, testMp4] 5 defaultAllowedTypes []
  exact ⟨by simpa using h.1, h.2 testPng (by decide)⟩

/-- C4 counterexample: validateFiles is a pure function of its arguments,
so re-validating the same single-file batch against the same unchanged
existing set classifies the file valid again; the duplicates bucket of the
repeated call (the same application term) is empty, where the claim
predicts the file name. -/
theorem validateFiles_rerun_counterexample :
    (validateFiles [testPng] 5 defaultAllowedTypes []).validFiles = [testPng]
    ∧ (validateFiles [testPng] 5 defaultAllowedTypes []).duplicates = [] := by
  decide

/-- C4 (amended): a passing single-file batch is classified valid, and
remains valid on a second call with the same unchanged existing set (the
result is the same pure application); it is classified duplicate on the
second call exactly when the file accepted by the first call has been
added to the existing set. -/
theorem validateFiles_rerun (f : File) (msf : Nat) (ats : List String)
    (exf : List File) (hs : f.size ≤ msf * 1024 * 1024)
    (ht : typeAllowed ats f.type = true)
    (hd : createFileSignature f ∉ exf.map createFileSignature) :
    (validateFiles [f] msf ats exf).validFiles = [f]
    ∧ (validateFiles [f] msf ats exf).duplicates = []
    ∧ (validateFiles [f] msf ats (exf ++ [f])).duplicates = [f.name]
    ∧ (validateFiles [f] msf ats (exf ++ [f])).validFiles = [] := by
  have hs2 : ¬ f.size > msf * 1024 * 1024 := Nat.not_lt.mpr hs
  have h1 := validateFiles_single_valid f msf ats exf hs2 ht hd
  have h2 := validateFiles_single_dup f msf ats (exf ++ [f]) hs2 ht
    (by simp)
  rw [h1, h2]
  exact ⟨rfl, rfl, rfl, rfl⟩

/-- Witness for C4 at a concrete file and empty existing set. -/
theorem validateFiles_rerun_witness :
    (testPng.size ≤ 5 * 1024 * 1024
      ∧ typeAllowed defaultAllowedTypes testPng.type = true
      ∧ createFileSignature testPng ∉ ([] : List File).map createFileSignature)
    ∧ (validateFiles [testPng] 5 defaultAllowedTypes []).validFiles = [testPng]
    ∧ (validateFiles [testPng] 5 defaultAllowedTypes []).duplicates = []
    ∧ (validateFiles [testPng] 5 defaultAllowedTypes [testPng]).duplicates = [testPng.name]
    ∧ (validateFiles [testPng] 5 defaultAllowedTypes [testPng]).validFiles = [] := by
  refine ⟨⟨by decide, by decide, by decide⟩, ?_⟩
  have h := validateFiles_rerun testPng 5 defaultAllowedTypes []
    (by decide) (by decide) (by decide)
  simpa using h

/-- C5 counterexample: a candidate of type imagexyz-slash-png is accepted
by the code (startsWith the allowed prefix image), although neither its
exact type nor its part before the slash matches any allowed entry, so the
claimed characterization of TypeNotAllowed fails at this input. -/
theorem validateFiles_type_check_counterexample :
    specTypeAllowed defaultAllowedTypes weirdFile.type = false
    ∧ (validateFiles [weirdFile] 5 defaultAllowedTypes []).invalid = []
    ∧ (validateFiles [weirdFile] 5 defaultAllowedTypes []).validFiles = [weirdFile] := by
  decide

/-- C5 (amended): a candidate within the size limit is classified invalid
with the type reason precisely when its type neither begins with the part
before the slash of some allowed entry nor equals an allowed entry. -/
theorem validateFiles_type_check (f : File) (msf : Nat) (ats : List String)
    (exf : List File) (hs : f.size ≤ msf * 1024 * 1024) :
    (validateFiles [f] msf ats exf).invalid = [(f.name, typeReason)]
      ↔ typeAllowed ats f.type = false := by
  have hs2 : ¬ f.size > msf * 1024 * 1024 := Nat.not_lt.mpr hs
  cases hb : typeAllowed ats f.type with
  | false =>
      rw [validateFiles_single_badtype f msf ats exf hs2 hb]
      simp
  | true =>
      by_cases hc : createFileSignature f ∈ exf.map createFileSignature
      · rw [validateFiles_single_dup f msf ats exf hs2 hb hc]
        simp
      · rw [validateFiles_single_valid f msf ats exf hs2 hb hc]
        simp

/-- Witness for C5 at a concrete rejected mp4 file. -/
theorem validateFiles_type_check_witness :
    testMp4.size ≤ 5 * 1024 * 1024
    ∧ ((validateFiles [testMp4] 5 defaultAllowedTypes []).invalid
        = [(testMp4.name, typeReason)]
      ↔ typeAllowed defaultAllowedTypes testMp4.type = false) :=
  ⟨by decide, validateFiles_type_check testMp4 5 defaultAllowedTypes [] (by decide)⟩

/-- C8 (confirmed): when digest computation fails for a file, the hash
function returns that file's weak identity signature; the function is
total, so the failure never surfaces to the caller as an error. -/
theorem generateFileHash_fallback (digest : File → Option (List Nat))
    (f : File) (h : digest f = none) :
    generateFileHash digest f = createFileSignature f := by
  simp [generateFileHash, h]

/-- Witness for C8 with an always-failing digest primitive. -/
theorem generateFileHash_fallback_witness :
    (fun _ : File => (none : Option (List Nat))) testPng = none
    ∧ generateFileHash (fun _ => none) testPng = createFileSignature testPng :=
  ⟨rfl, generateFileHash_fallback (fun _ => none) testPng rfl⟩

/-! Lemmas about the last-dot arithmetic of getFileExtension. -/

/-- The first hit of findIdx? after a miss-only stretch. -/
theorem findIdx_first_hit (c : Char) (l2 : List Char) :
    ∀ (l1 : List Char) (i : Nat), (∀ x ∈ l1, (x == c) = false) →
      (l1 ++ c :: l2).findIdx? (fun x => x == c) i = some (i + l1.length) := by
  intro l1
  induction l1 with
  | nil => intro i h; simp
  | cons a l ih =>
      intro i h
      have ha : (a == c) = false := h a (by simp)
      simp only [List.cons_append, List.findIdx?_cons, ha, if_false,
        Bool.false_eq_true, List.length_cons]
      rw [List.findIdx?_succ, ih i (fun x hx => h x (List.mem_cons_of_mem a hx))]
      simp [Nat.add_comm, Nat.add_assoc, Nat.add_left_comm]

/-- The last-dot index of a string decomposed around its final dot. -/
theorem lastIndexOfChar_of_split (s : String) (pre post : List Char)
    (hs : s.data = pre ++ '.' :: post) (hpost : '.' ∉ post) :
    lastIndexOfChar s '.' = (pre.length : Int) := by
  have hrev : s.data.reverse = post.reverse ++ '.' :: pre.reverse := by
    rw [hs]
    simp
  have hmiss : ∀ x ∈ post.reverse, (x == '.') = false := by
    intro x hx
    have hx2 : x ∈ post := List.mem_reverse.mp hx
    have : x ≠ '.' := fun h => hpost (h ▸ hx2)
    simpa using this
  have hidx := findIdx_first_hit '.' pre.reverse post.reverse 0 hmiss
  have hlen : s.data.length = pre.length + 1 + post.length := by
    rw [hs]
    simp only [List.length_append, List.length_cons]
    omega
  unfold lastIndexOfChar
  rw [hrev, hidx]
  simp only [hlen, List.length_reverse, Nat.zero_add]
  congr 1
  omega

/-- C9 counterexample: the filename dot-bashrc contains a dot and the
substring after its last dot is bashrc, yet getFileExtension returns the
empty string (the unsigned-wrap arithmetic sends a dot at index zero past
the end of the string). -/
theorem getFileExtension_counterexample :
    getFileExtension ".bashrc" = ""
    ∧ ("" : String) ≠ "bashrc"
    ∧ '.' ∈ ".bashrc".data := by
  decide

/-- C9 (amended): for a filename without a dot the result is empty; for a
filename whose last dot is at index zero the result is also empty; for a
filename whose last dot sits at a positive index the result is the
substring after that last dot.  The length bound models the JS unsigned
32-bit index domain of the source idiom. -/
theorem getFileExtension_spec (s : String) (hlen : s.data.length ≤ 2 ^ 32) :
    (('.' ∉ s.data) → getFileExtension s = "")
    ∧ (∀ pre post : List Char, s.data = pre ++ '.' :: post → '.' ∉ post →
        (pre ≠ [] → getFileExtension s = String.mk post)
        ∧ (pre = [] → getFileExtension s = "")) := by
  constructor
  · intro hno
    have hfind : s.data.reverse.findIdx? (fun x => x == '.') = none := by
      rw [List.findIdx?_eq_none_iff]
      intro x hx
      have hx2 : x ∈ s.data := List.mem_reverse.mp hx
      have : x ≠ '.' := fun h => hno (h ▸ hx2)
      simpa using this
    have hidx : lastIndexOfChar s '.' = -1 := by
      unfold lastIndexOfChar
      rw [hfind]
    unfold getFileExtension jsSliceFrom
    rw [hidx]
    have harith : toUint32 (-1 - 1) + 2 = 2 ^ 32 := by decide
    rw [harith]
    have : s.data.drop (2 ^ 32) = [] := List.drop_eq_nil_of_le hlen
    rw [this]
  · intro pre post hs hpost
    have hidx := lastIndexOfChar_of_split s pre post hs hpost
    have hplen : pre.length < s.data.length := by
      rw [hs]
      simp only [List.length_append, List.length_cons]
      omega
    constructor
    · intro hpre
      have hk : 1 ≤ pre.length := by
        cases pre with
        | nil => exact absurd rfl hpre
        | cons a l => simp
      have harith : toUint32 ((pre.length : Int) - 1) + 2 = pre.length + 1 := by
        unfold toUint32
        omega
      unfold getFileExtension jsSliceFrom
      rw [hidx, harith, hs]
      have hdrop : (pre ++ '.' :: post).drop (pre.length + 1) = post := by
        have h3 : pre ++ '.' :: post = (pre ++ ['.']) ++ post := by simp
        rw [h3]
        have hlen2 : (pre ++ ['.']).length = pre.length + 1 := by simp
        rw [← hlen2]
        exact List.drop_left _ _
      rw [hdrop]
    · intro hpre
      subst hpre
      have hidx0 : lastIndexOfChar s '.' = ((0 : Nat) : Int) := by simpa using hidx
      have harith : toUint32 (((0 : Nat) : Int) - 1) + 2 = 2 ^ 32 + 1 := by
        unfold toUint32
        omega
      unfold getFileExtension jsSliceFrom
      rw [hidx0, harith]
      have hnil : s.data.drop (2 ^ 32 + 1) = [] :=
        List.drop_eq_nil_of_le (Nat.le_succ_of_le hlen)
      rw [hnil]

/-- Witness for C9 at a concrete two-part filename. -/
theorem getFileExtension_spec_witness :
    ("a.png".data.length ≤ 2 ^ 32) ∧ getFileExtension "a.png" = "png" := by
  refine ⟨by decide, ?_⟩
  have h := (getFileExtension_spec "a.png" (by decide)).2
    ['a'] ['p', 'n', 'g'] (by decide) (by decide)
  have h2 := h.1 (by decide)
  rw [h2]


/-! Manager lemmas: setFeaturedImage and removeImage. -/

/-- A concrete featured entry. -/
def featuredItem : MediaItem := ⟨"a", "url", none, true, "image"⟩

/-- Concrete three-entry collection members. -/
def itemA : MediaItem := ⟨"a", "u1", none, false, "image"⟩

/-- Second member, the featured one. -/
def itemB : MediaItem := ⟨"b", "u2", none, true, "image"⟩

/-- Third member. -/
def itemC : MediaItem := ⟨"c", "u3", none, false, "image"⟩

/-- The featured count after setFeaturedImage equals the number of
entries carrying the requested id. -/
theorem featuredCount_setFeatured (images : List MediaItem) (imageId : String) :
    featuredCount (setFeaturedImage images imageId)
      = (images.filter (fun img => img.id == imageId)).length := by
  induction images with
  | nil => rfl
  | cons a l ih =>
      simp only [setFeaturedImage, List.map_cons, featuredCount,
        List.filter_cons] at ih ⊢
      cases h : a.id == imageId <;> simp [h, ih]

/-- setFeaturedImage changes nothing but featured flags. -/
theorem clearFeatured_setFeatured (images : List MediaItem) (imageId : String) :
    (setFeaturedImage images imageId).map clearFeatured
      = images.map clearFeatured := by
  induction images with
  | nil => rfl
  | cons a l ih =>
      simp only [setFeaturedImage, List.map_cons] at ih ⊢
      rw [ih]
      rfl

/-- C2 counterexample: on a one-entry collection whose entry is featured,
setFeaturedImage with an id that is not present changes the collection
(the featured flag of every entry is cleared), so the call is not a
no-op. -/
theorem setFeaturedImage_counterexample :
    "zzz" ∉ idsOf [featuredItem]
    ∧ setFeaturedImage [featuredItem] "zzz" ≠ [featuredItem]
    ∧ featuredCount (setFeaturedImage [featuredItem] "zzz") = 0 := by
  decide

/-- C2 (amended): setFeaturedImage sets each entry's featured flag to the
comparison of its id with the requested id, leaving every other field
unchanged; the featured count becomes the number of entries bearing that
id, so a present (unique) id yields exactly one featured entry, while an
absent id clears the featured flag on all entries instead of being a
no-op. -/
theorem setFeaturedImage_spec (images : List MediaItem) (imageId : String) :
    featuredCount (setFeaturedImage images imageId)
      = (images.filter (fun img => img.id == imageId)).length
    ∧ (setFeaturedImage images imageId).map clearFeatured
        = images.map clearFeatured
    ∧ (imageId ∉ idsOf images →
        featuredCount (setFeaturedImage images imageId) = 0) := by
  refine ⟨featuredCount_setFeatured images imageId,
    clearFeatured_setFeatured images imageId, ?_⟩
  intro habs
  rw [featuredCount_setFeatured images imageId]
  have : images.filter (fun img => img.id == imageId) = [] := by
    rw [List.filter_eq_nil_iff]
    intro img hm h
    have heq : img.id = imageId := by simpa using h
    exact habs (heq ▸ List.mem_map_of_mem MediaItem.id hm)
  rw [this]
  rfl

/-- Witness for C2 on a concrete collection and an absent id. -/
theorem setFeaturedImage_spec_witness :
    featuredCount (setFeaturedImage [featuredItem] "zzz")
      = ([featuredItem].filter (fun img => img.id == "zzz")).length
    ∧ (setFeaturedImage [featuredItem] "zzz").map clearFeatured
        = [featuredItem].map clearFeatured
    ∧ ("zzz" ∉ idsOf [featuredItem] →
        featuredCount (setFeaturedImage [featuredItem] "zzz") = 0) :=
  setFeaturedImage_spec [featuredItem] "zzz"

/-- find? lands on the first satisfying element after a failing
stretch. -/
theorem find_first_hit (p : MediaItem → Bool) (b : MediaItem)
    (l2 : List MediaItem) :
    ∀ l1 : List MediaItem, (∀ x ∈ l1, p x = false) → p b = true →
      (l1 ++ b :: l2).find? p = some b := by
  intro l1
  induction l1 with
  | nil => intro _ hb; simp [List.find?_cons, hb]
  | cons a l ih =>
      intro h hb
      have ha : p a = false := h a (by simp)
      simp only [List.cons_append, List.find?_cons, ha]
      exact ih (fun x hx => h x (List.mem_cons_of_mem a hx)) hb

/-- Filtering away an id removes exactly the named entry when the other
entries carry different ids. -/
theorem filter_decomp (l1 l2 : List MediaItem) (b : MediaItem)
    (h1 : ∀ x ∈ l1, x.id ≠ b.id) (h2 : ∀ x ∈ l2, x.id ≠ b.id) :
    (l1 ++ b :: l2).filter (fun x => x.id != b.id) = l1 ++ l2 := by
  rw [List.filter_append, List.filter_cons]
  have hb : (b.id != b.id) = false := by simp
  rw [hb]
  have e1 : l1.filter (fun x => x.id != b.id) = l1 := by
    rw [List.filter_eq_self]
    intro x hx
    simpa using h1 x hx
  have e2 : l2.filter (fun x => x.id != b.id) = l2 := by
    rw [List.filter_eq_self]
    intro x hx
    simpa using h2 x hx
  rw [e1, e2]
  simp

/-- C7 (confirmed): removing an entry whose id is carried by no other
entry deletes exactly that entry; when it was featured and entries
remain, the first remaining entry in collection order is promoted to
featured; when it was not featured, the remaining entries keep their
featured flags untouched. -/
theorem removeImage_spec (l1 l2 : List MediaItem) (img : MediaItem)
    (h1 : ∀ x ∈ l1, x.id ≠ img.id) (h2 : ∀ x ∈ l2, x.id ≠ img.id) :
    (img.isFeatured = true → ∀ first rest, l1 ++ l2 = first :: rest →
        removeImage (l1 ++ img :: l2) img.id
          = { first with isFeatured := true } :: rest)
    ∧ (img.isFeatured = false →
        removeImage (l1 ++ img :: l2) img.id = l1 ++ l2) := by
  have hfind : (l1 ++ img :: l2).find? (fun x => x.id == img.id) = some img := by
    apply find_first_hit (fun x => x.id == img.id) img l2 l1 _ (by simp)
    intro x hx
    simpa using h1 x hx
  have hfilter := filter_decomp l1 l2 img h1 h2
  constructor
  · intro hf first rest hsplit
    simp [removeImage, hfind, hfilter, hsplit, hf, promoteFirst]
  · intro hf
    simp [removeImage, hfind, hfilter, hf]

/-- Witness for C7: removing the featured middle entry of a three-entry
collection promotes the first remaining entry. -/
theorem removeImage_spec_witness :
    (∀ x ∈ [itemA], x.id ≠ itemB.id) ∧ (∀ x ∈ [itemC], x.id ≠ itemB.id)
    ∧ itemB.isFeatured = true
    ∧ removeImage [itemA, itemB, itemC] itemB.id
        = [{ itemA with isFeatured := true }, itemC] := by
  refine ⟨by decide, by decide, by decide, ?_⟩
  have h := (removeImage_spec [itemA] [itemC] itemB (by decide) (by decide)).1
    (by decide) itemA [itemC] (by decide)
  simpa using h

/-! Capacity policy of handleFileSelect. -/

/-- A five-file batch of small pngs. -/
def batchFiles : List File :=
  [⟨"f1.png", 1, "image/png", 0⟩, ⟨"f2.png", 2, "image/png", 0⟩,
   ⟨"f3.png", 3, "image/png", 0⟩, ⟨"f4.png", 4, "image/png", 0⟩,
   ⟨"f5.png", 5, "image/png", 0⟩]

/-- Within capacity, the JS slice of the leading candidates is a take of
the remaining-slot count. -/
theorem jsSliceTo_take (files : List File) (maxImages len : Nat)
    (hcap : len ≤ maxImages) :
    jsSliceTo files ((maxImages : Int) - (len : Int))
      = files.take (maxImages - len) := by
  unfold jsSliceTo
  rw [if_pos (by omega)]
  congr 1
  omega

/-- C6 counterexample: with zero remaining capacity and an empty candidate
batch, the call returns silently through the empty-file-list guard: no
capacity failure is reported (the claim predicts a failure report whenever
the remaining capacity is zero). -/
theorem handleFileSelect_capacity_counterexample :
    2 - ([itemA, itemB] : List MediaItem).length = 0
    ∧ (handleFileSelect 2 5 idGen urlGen false [itemA, itemB] []).outcome
        = AddOutcome.noFiles
    ∧ AddOutcome.noFiles ≠ AddOutcome.capacityFailure
    ∧ (handleFileSelect 2 5 idGen urlGen false [itemA, itemB] []).validatorInput
        = none := by
  decide

/-- C6 (amended): for a quiescent manager within its capacity bound and a
non-empty candidate batch, with k remaining slots: when k is zero the call
reports the capacity failure and the validator receives nothing; when k is
positive the validator receives exactly the first min(k, batch length)
candidates in input order and the rest are discarded without
classification.  An empty batch instead returns silently through the
empty-list guard. -/
theorem handleFileSelect_capacity (maxImages maxFileSize : Nat)
    (mkId : Nat → String) (mkUrl : File → String)
    (images : List MediaItem) (files : List File)
    (hne : files ≠ []) (hcap : images.length ≤ maxImages) :
    (maxImages - images.length = 0 →
        (handleFileSelect maxImages maxFileSize mkId mkUrl false images files).outcome
            = AddOutcome.capacityFailure
        ∧ (handleFileSelect maxImages maxFileSize mkId mkUrl false images files).validatorInput
            = none)
    ∧ (0 < maxImages - images.length →
        (handleFileSelect maxImages maxFileSize mkId mkUrl false images files).validatorInput
            = some (files.take (maxImages - images.length))
        ∧ (files.take (maxImages - images.length)).length
            = min (maxImages - images.length) files.length) := by
  have hlen : files.length ≠ 0 := fun h => hne (List.length_eq_zero.mp h)
  have hlen0 : (files.length == 0) = false := by simpa using hlen
  have hslice := jsSliceTo_take files maxImages images.length hcap
  constructor
  · intro hk
    simp only [handleFileSelect, hlen0, Bool.false_eq_true, if_false, hslice,
      hk, List.take_zero, List.length_nil]
    exact ⟨rfl, rfl⟩
  · intro hk
    have htlen : (files.take (maxImages - images.length)).length
        = min (maxImages - images.length) files.length := List.length_take _ _
    have hpos : (files.take (maxImages - images.length)).length ≠ 0 := by
      rw [htlen]
      omega
    have hpos0 : ((files.take (maxImages - images.length)).length == 0) = false := by
      simpa using hpos
    refine ⟨?_, htlen⟩
    simp only [handleFileSelect, hlen0, Bool.false_eq_true, if_false, hslice,
      hpos0]
    by_cases hv : ((validateFiles (files.take (maxImages - images.length))
        maxFileSize defaultAllowedTypes (images.filterMap MediaItem.file)).validFiles.length
        == 0) = true
    · simp only [hv, if_true]
    · simp only [Bool.not_eq_true] at hv
      simp only [hv, Bool.false_eq_true, if_false]

/-- Witness for C6: five candidates against two remaining slots. -/
theorem handleFileSelect_capacity_witness :
    (batchFiles ≠ [] ∧ ([] : List MediaItem).length ≤ 2)
    ∧ ((2 - ([] : List MediaItem).length = 0 →
        (handleFileSelect 2 5 idGen urlGen false [] batchFiles).outcome
            = AddOutcome.capacityFailure
        ∧ (handleFileSelect 2 5 idGen urlGen false [] batchFiles).validatorInput
            = none)
    ∧ (0 < 2 - ([] : List MediaItem).length →
        (handleFileSelect 2 5 idGen urlGen false [] batchFiles).validatorInput
            = some (batchFiles.take (2 - ([] : List MediaItem).length))
        ∧ (batchFiles.take (2 - ([] : List MediaItem).length)).length
            = min (2 - ([] : List MediaItem).length) batchFiles.length)) :=
  ⟨⟨by decide, by decide⟩,
    handleFileSelect_capacity 2 5 idGen urlGen [] batchFiles (by decide) (by decide)⟩

/-! The signature-group invariant of findDuplicatesInArray. -/

/-- A key occurs in the map exactly when some entry carries it. -/
theorem any_key_iff (m : List (String × List File)) (sig : String) :
    m.any (fun p => p.1 == sig) = true ↔ sig ∈ m.map Prod.fst := by
  simp only [List.any_eq_true, beq_iff_eq, List.mem_map]

/-- When entry values are described by a function of their key and the
key is present, the get-or-empty lookup returns that description. -/
theorem mapGetD_eq_of_val (m : List (String × List File)) (sig : String)
    (F : String → List File) (hval : ∀ p ∈ m, p.2 = F p.1)
    (hmem : sig ∈ m.map Prod.fst) : mapGetD m sig = F sig := by
  cases hf : m.find? (fun p => p.1 == sig) with
  | none =>
      exfalso
      rw [List.find?_eq_none] at hf
      obtain ⟨q, hq, hq1⟩ := List.mem_map.mp hmem
      exact (hf q hq) (by simp [hq1])
  | some q =>
      have hq := List.find?_some hf
      have hqm := List.mem_of_find?_eq_some hf
      have h1 : q.1 = sig := by simpa using hq
      simp only [mapGetD, hf]
      rw [hval q hqm, h1]

/-- The get-or-empty lookup of an absent key is empty. -/
theorem mapGetD_eq_nil_of_absent (m : List (String × List File)) (sig : String)
    (habs : sig ∉ m.map Prod.fst) : mapGetD m sig = [] := by
  cases hf : m.find? (fun p => p.1 == sig) with
  | none => simp only [mapGetD, hf]
  | some q =>
      exfalso
      have hq := List.find?_some hf
      have hqm := List.mem_of_find?_eq_some hf
      have h1 : q.1 = sig := by simpa using hq
      exact habs (h1 ▸ List.mem_map_of_mem Prod.fst hqm)

/-- The signature filter over a cons distributes as a prepended hit or a
skip. -/
theorem sigFilter_cons (f : File) (rest : List File) (sig : String) :
    sigFilter (f :: rest) sig
      = (if (createFileSignature f == sig) = true then [f] else [])
        ++ sigFilter rest sig := by
  simp only [sigFilter, List.filter_cons]
  split
  · simp
  · simp

/-- One sigStep preserves the group invariant, extending the description
function by the consumed file. -/
theorem sigStep_inv (m : List (String × List File)) (F : String → List File)
    (f : File) (hnd : (m.map Prod.fst).Nodup)
    (hval : ∀ p ∈ m, p.2 = F p.1)
    (hmiss : ∀ sig, sig ∉ m.map Prod.fst → F sig = []) :
    ((sigStep m f).map Prod.fst).Nodup
    ∧ (∀ p ∈ sigStep m f,
        p.2 = F p.1 ++ (if (createFileSignature f == p.1) = true then [f] else []))
    ∧ (∀ sig, sig ∉ (sigStep m f).map Prod.fst →
        F sig ++ (if (createFileSignature f == sig) = true then [f] else []) = []) := by
  by_cases hmem : createFileSignature f ∈ m.map Prod.fst
  · have hany : m.any (fun p => p.1 == createFileSignature f) = true :=
      (any_key_iff m (createFileSignature f)).mpr hmem
    have hget := mapGetD_eq_of_val m (createFileSignature f) F hval hmem
    have hstep : sigStep m f
        = m.map (fun p => if p.1 == createFileSignature f
            then (createFileSignature f, mapGetD m (createFileSignature f) ++ [f])
            else p) := by
      simp [sigStep, mapSet, hany]
    have hkeys : (sigStep m f).map Prod.fst = m.map Prod.fst := by
      rw [hstep, List.map_map]
      apply List.map_congr_left
      intro p hp
      by_cases h : (p.1 == createFileSignature f) = true
      · have he : p.1 = createFileSignature f := beq_iff_eq.mp h
        simp [Function.comp, h, he]
      · simp only [Bool.not_eq_true] at h
        simp [Function.comp, h]
    refine ⟨hkeys ▸ hnd, ?_, ?_⟩
    · intro q hq
      rw [hstep] at hq
      obtain ⟨p, hp, hpe⟩ := List.mem_map.mp hq
      by_cases h : (p.1 == createFileSignature f) = true
      · have he : p.1 = createFileSignature f := beq_iff_eq.mp h
        rw [if_pos h] at hpe
        subst hpe
        simp [hget]
      · simp only [Bool.not_eq_true] at h
        rw [if_neg (by simp [h])] at hpe
        subst hpe
        have hne : (createFileSignature f == p.1) = false := by
          rw [beq_eq_false_iff_ne]
          intro he
          rw [← he] at h
          simp at h
        rw [hval p hp, hne]
        simp
    · intro sig hsig
      rw [hkeys] at hsig
      have hne : (createFileSignature f == sig) = false := by
        rw [beq_eq_false_iff_ne]
        intro he
        exact hsig (he ▸ hmem)
      rw [hmiss sig hsig, hne]
      simp
  · have hany : m.any (fun p => p.1 == createFileSignature f) = false := by
      cases hb : m.any (fun p => p.1 == createFileSignature f) with
      | false => rfl
      | true => exact absurd ((any_key_iff m (createFileSignature f)).mp hb) hmem
    have hget := mapGetD_eq_nil_of_absent m (createFileSignature f) hmem
    have hstep : sigStep m f = m ++ [(createFileSignature f, [f])] := by
      simp [sigStep, mapSet, hany, hget]
    have hkeys : (sigStep m f).map Prod.fst
        = m.map Prod.fst ++ [createFileSignature f] := by
      rw [hstep]
      simp
    refine ⟨?_, ?_, ?_⟩
    · rw [hkeys, List.nodup_append]
      refine ⟨hnd, by simp, ?_⟩
      intro a ha hb
      simp only [List.mem_singleton] at hb
      exact hmem (hb ▸ ha)
    · intro q hq
      rw [hstep] at hq
      rcases List.mem_append.mp hq with hq | hq
      · have hne : (createFileSignature f == q.1) = false := by
          rw [beq_eq_false_iff_ne]
          intro he
          exact hmem (he ▸ List.mem_map_of_mem Prod.fst hq)
        rw [hval q hq, hne]
        simp
      · simp only [List.mem_singleton] at hq
        subst hq
        rw [hmiss (createFileSignature f) hmem]
        simp
    · intro sig hsig
      rw [hkeys] at hsig
      simp only [List.mem_append, List.mem_singleton, not_or] at hsig
      have hne : (createFileSignature f == sig) = false := by
        rw [beq_eq_false_iff_ne]
        intro he
        exact hsig.2 he.symm
      rw [hmiss sig hsig.1, hne]
      simp

/-- The whole signatureMap loop maintains the group invariant. -/
theorem buildMap_fold_inv (files : List File) :
    ∀ (m : List (String × List File)) (F : String → List File),
      (m.map Prod.fst).Nodup →
      (∀ p ∈ m, p.2 = F p.1) →
      (∀ sig, sig ∉ m.map Prod.fst → F sig = []) →
      ((files.foldl sigStep m).map Prod.fst).Nodup
      ∧ (∀ p ∈ files.foldl sigStep m, p.2 = F p.1 ++ sigFilter files p.1)
      ∧ (∀ sig, sig ∉ (files.foldl sigStep m).map Prod.fst →
          F sig ++ sigFilter files sig = []) := by
  induction files with
  | nil =>
      intro m F hnd hval hmiss
      refine ⟨hnd, ?_, ?_⟩
      · intro p hp
        simp [sigFilter, hval p hp]
      · intro sig hsig
        simp [sigFilter, hmiss sig hsig]
  | cons f rest ih =>
      intro m F hnd hval hmiss
      simp only [List.foldl_cons]
      obtain ⟨hnd1, hval1, hmiss1⟩ := sigStep_inv m F f hnd hval hmiss
      obtain ⟨ha, hb, hc⟩ := ih (sigStep m f)
        (fun sig => F sig
          ++ (if (createFileSignature f == sig) = true then [f] else []))
        hnd1 hval1 hmiss1
      refine ⟨ha, ?_, ?_⟩
      · intro p hp
        rw [hb p hp, sigFilter_cons, ← List.append_assoc]
      · intro sig hsig
        have h := hc sig hsig
        rw [sigFilter_cons, ← List.append_assoc]
        exact h

/-- The finished signature map: distinct keys, each group exactly the
input files of that signature in input order, and every signature of an
input file present among the keys. -/
theorem buildSignatureMap_inv (files : List File) :
    ((buildSignatureMap files).map Prod.fst).Nodup
    ∧ (∀ p ∈ buildSignatureMap files, p.2 = sigFilter files p.1)
    ∧ (∀ sig, sig ∉ (buildSignatureMap files).map Prod.fst →
        sigFilter files sig = []) := by
  obtain ⟨ha, hb, hc⟩ := buildMap_fold_inv files [] (fun _ => [])
    (by simp) (by simp) (fun _ _ => rfl)
  refine ⟨ha, ?_, ?_⟩
  · intro p hp
    simpa using hb p hp
  · intro sig hsig
    simpa using hc sig hsig

/-- C10 (confirmed): every entry of the duplicates map holds exactly the
input files bearing its key signature in input order, at least two of
them; every file whose signature is shared by at least two input files
contributes such an entry; and no file with a signature unique in the
input appears in any entry. -/
theorem findDuplicatesInArray_spec (files : List File) :
    (∀ p ∈ findDuplicatesInArray files,
        p.2 = sigFilter files p.1 ∧ 2 ≤ p.2.length)
    ∧ (∀ f ∈ files, 2 ≤ (sigFilter files (createFileSignature f)).length →
        (createFileSignature f, sigFilter files (createFileSignature f))
          ∈ findDuplicatesInArray files)
    ∧ (∀ f ∈ files, (sigFilter files (createFileSignature f)).length = 1 →
        ∀ p ∈ findDuplicatesInArray files, f ∉ p.2) := by
  obtain ⟨hnd, hval, hmiss⟩ := buildSignatureMap_inv files
  refine ⟨?_, ?_, ?_⟩
  · intro p hp
    simp only [findDuplicatesInArray, List.mem_filter] at hp
    obtain ⟨hm, hlen⟩ := hp
    refine ⟨hval p hm, ?_⟩
    simp only [decide_eq_true_eq] at hlen
    omega
  · intro f hf hshared
    have hselfmem : f ∈ sigFilter files (createFileSignature f) := by
      simp [sigFilter, List.mem_filter, hf]
    have hkey : createFileSignature f ∈ (buildSignatureMap files).map Prod.fst := by
      by_contra habs
      rw [hmiss (createFileSignature f) habs] at hselfmem
      cases hselfmem
    obtain ⟨p, hp, hp1⟩ := List.mem_map.mp hkey
    have hpv := hval p hp
    have hpair : p = (createFileSignature f,
        sigFilter files (createFileSignature f)) := by
      cases p with
      | mk a b =>
          simp only at hp1 hpv
          rw [hp1] at hpv ⊢
          rw [hpv]
    rw [← hpair]
    simp only [findDuplicatesInArray, List.mem_filter]
    refine ⟨hp, ?_⟩
    rw [hpv, hp1]
    simp only [decide_eq_true_eq]
    omega
  · intro f hf huniq p hp hfp
    simp only [findDuplicatesInArray, List.mem_filter] at hp
    obtain ⟨hm, hlen⟩ := hp
    have hpv := hval p hm
    rw [hpv] at hfp
    have hsig : createFileSignature f = p.1 := by
      simp only [sigFilter, List.mem_filter] at hfp
      exact beq_iff_eq.mp hfp.2
    rw [hpv, ← hsig] at hlen
    rw [huniq] at hlen
    simp at hlen

/-- A concrete batch with one repeated file and one unique one. -/
def dupFiles : List File := [testPng, testPng, testMp4]

/-- Witness for C10: the repeated png yields a two-file group. -/
theorem findDuplicatesInArray_spec_witness :
    testPng ∈ dupFiles
    ∧ 2 ≤ (sigFilter dupFiles (createFileSignature testPng)).length
    ∧ (createFileSignature testPng, sigFilter dupFiles (createFileSignature testPng))
        ∈ findDuplicatesInArray dupFiles := by
  refine ⟨by decide, by decide, ?_⟩
  exact (findDuplicatesInArray_spec dupFiles).2.1 testPng (by decide) (by decide)

/-! The single-featured invariant of the image-collection state machine. -/

/-- A healthy collection: distinct ids and the single-featured
invariant. -/
def GoodState (images : List MediaItem) : Prop :=
  (idsOf images).Nodup ∧ FeaturedInv images

/-- Featured counting distributes over append. -/
theorem featuredCount_append (l1 l2 : List MediaItem) :
    featuredCount (l1 ++ l2) = featuredCount l1 + featuredCount l2 := by
  simp [featuredCount, List.filter_append]

/-- Featured counting over a cons. -/
theorem featuredCount_cons (x : MediaItem) (l : List MediaItem) :
    featuredCount (x :: l)
      = (if x.isFeatured = true then 1 else 0) + featuredCount l := by
  simp only [featuredCount, List.filter_cons]
  by_cases h : x.isFeatured = true
  · simp [h, Nat.add_comm]
  · simp [h]

/-- The generated entries carry the generator's ids over consecutive
indices. -/
theorem idsOf_buildNewImages (mkId : Nat → String) (mkUrl : File → String)
    (b : Bool) : ∀ (l : List File) (idx : Nat),
    idsOf (buildNewImages mkId mkUrl b idx l)
      = (List.range' idx l.length).map mkId := by
  intro l
  induction l with
  | nil => intro idx; rfl
  | cons f t ih =>
      intro idx
      simp only [buildNewImages, idsOf, List.map_cons, List.length_cons,
        List.range'] at ih ⊢
      rw [ih (idx + 1)]
      rfl

/-- The generated entries are as many as the accepted files. -/
theorem length_buildNewImages (mkId : Nat → String) (mkUrl : File → String)
    (b : Bool) : ∀ (l : List File) (idx : Nat),
    (buildNewImages mkId mkUrl b idx l).length = l.length := by
  intro l
  induction l with
  | nil => intro idx; rfl
  | cons f t ih =>
      intro idx
      simp only [buildNewImages, List.length_cons, ih (idx + 1)]

/-- Entries generated into a non-empty collection are all unfeatured. -/
theorem featuredCount_buildNewImages_false (mkId : Nat → String)
    (mkUrl : File → String) : ∀ (l : List File) (idx : Nat),
    featuredCount (buildNewImages mkId mkUrl false idx l) = 0 := by
  intro l
  induction l with
  | nil => intro idx; rfl
  | cons f t ih =>
      intro idx
      rw [buildNewImages, featuredCount_cons, ih (idx + 1)]
      simp [mkMediaItem]

/-- Entries generated at positive indices are all unfeatured even into an
empty collection. -/
theorem featuredCount_buildNewImages_pos (mkId : Nat → String)
    (mkUrl : File → String) : ∀ (l : List File) (idx : Nat), 1 ≤ idx →
    featuredCount (buildNewImages mkId mkUrl true idx l) = 0 := by
  intro l
  induction l with
  | nil => intro idx _; rfl
  | cons f t ih =>
      intro idx hidx
      rw [buildNewImages, featuredCount_cons, ih (idx + 1) (by omega)]
      have h0 : (idx == 0) = false := by
        rw [beq_eq_false_iff_ne]
        omega
      simp [mkMediaItem, h0]

/-- A batch generated into an empty collection features exactly its first
entry. -/
theorem featuredCount_buildNewImages_head (mkId : Nat → String)
    (mkUrl : File → String) (v : File) (vs : List File) :
    featuredCount (buildNewImages mkId mkUrl true 0 (v :: vs)) = 1 := by
  rw [buildNewImages, featuredCount_cons,
    featuredCount_buildNewImages_pos mkId mkUrl vs 1 (by omega)]
  simp [mkMediaItem]

/-- Promotion does not touch ids. -/
theorem idsOf_promoteFirst (l : List MediaItem) :
    idsOf (promoteFirst l) = idsOf l := by
  cases l with
  | nil => rfl
  | cons a t => rfl

/-- Promotion of an unfeatured collection yields exactly one featured
entry. -/
theorem featuredCount_promoteFirst (a : MediaItem) (t : List MediaItem)
    (h : featuredCount (a :: t) = 0) :
    featuredCount (promoteFirst (a :: t)) = 1 := by
  rw [featuredCount_cons] at h
  rw [promoteFirst, featuredCount_cons]
  have hval : ({ a with isFeatured := true } : MediaItem).isFeatured = true := rfl
  rw [if_pos hval]
  by_cases ha : a.isFeatured = true
  · rw [if_pos ha] at h
    omega
  · rw [if_neg ha] at h
    omega

/-- A find? hit splits the list around its first satisfying element. -/
theorem find_decomp (p : MediaItem → Bool) :
    ∀ (l : List MediaItem) (b : MediaItem), l.find? p = some b →
      ∃ l1 l2, l = l1 ++ b :: l2 ∧ ∀ x ∈ l1, p x = false := by
  intro l
  induction l with
  | nil => intro b h; cases h
  | cons a t ih =>
      intro b h
      by_cases hpa : p a = true
      · rw [List.find?_cons_of_pos _ hpa] at h
        obtain rfl : a = b := by injection h
        exact ⟨[], t, rfl, by intro x hx; cases hx⟩
      · have hpa2 : p a = false := by
          cases hv : p a
          · rfl
          · exact absurd hv hpa
        rw [List.find?_cons_of_neg _ (by simp [hpa2])] at h
        obtain ⟨l1, l2, hl, hall⟩ := ih b h
        refine ⟨a :: l1, l2, by rw [hl]; rfl, ?_⟩
        intro x hx
        rcases List.mem_cons.mp hx with rfl | hx
        · exact hpa2
        · exact hall x hx

/-- Ids distribute over append. -/
theorem idsOf_append (l1 l2 : List MediaItem) :
    idsOf (l1 ++ l2) = idsOf l1 ++ idsOf l2 := by
  simp [idsOf]

/-- A handleFileSelect call either leaves the collection alone or appends
the freshly generated entries for a non-empty accepted batch. -/
theorem handleFileSelect_images (maxImages maxFileSize : Nat)
    (mkId : Nat → String) (mkUrl : File → String)
    (images : List MediaItem) (files : List File) :
    (handleFileSelect maxImages maxFileSize mkId mkUrl false images files).images
        = images
    ∨ ∃ valids : List File, valids ≠ []
        ∧ (handleFileSelect maxImages maxFileSize mkId mkUrl false images files).images
            = images ++ buildNewImages mkId mkUrl (images.length == 0) 0 valids := by
  simp only [handleFileSelect]
  split
  next => exact Or.inl rfl
  next =>
    split
    next => exact Or.inl rfl
    next =>
      split
      next => exact Or.inl rfl
      next =>
        split
        next => exact Or.inl rfl
        next hv =>
          refine Or.inr ⟨_, ?_, rfl⟩
          intro hnil
          rw [hnil] at hv
          simp at hv

/-- A well-guarded add call preserves the healthy-collection invariant. -/
theorem goodState_add (maxImages maxFileSize : Nat) (mkId : Nat → String)
    (mkUrl : File → String) (images : List MediaItem) (files : List File)
    (hg : GoodState images) (hinj : Function.Injective mkId)
    (hfresh : ∀ n, mkId n ∉ idsOf images) :
    GoodState (handleFileSelect maxImages maxFileSize mkId mkUrl false images files).images := by
  rcases handleFileSelect_images maxImages maxFileSize mkId mkUrl images files with
    h | ⟨valids, hne, h⟩
  · rw [h]
    exact hg
  · rw [h]
    obtain ⟨hnd, hinv⟩ := hg
    constructor
    · rw [idsOf_append, List.nodup_append]
      refine ⟨hnd, ?_, ?_⟩
      · rw [idsOf_buildNewImages]
        exact (List.nodup_range' 0 valids.length).map hinj
      · intro a ha hb
        rw [idsOf_buildNewImages] at hb
        obtain ⟨j, _, rfl⟩ := List.mem_map.mp hb
        exact hfresh j ha
    · unfold FeaturedInv at hinv ⊢
      rw [featuredCount_append]
      by_cases he : images = []
      · subst he
        have hb : ((List.nil : List MediaItem).length == 0) = true := rfl
        rw [hb]
        cases valids with
        | nil => exact absurd rfl hne
        | cons v vs =>
            rw [featuredCount_buildNewImages_head]
            have h0 : featuredCount ([] : List MediaItem) = 0 := rfl
            rw [h0]
            rw [if_neg (by simp [buildNewImages])]
      · have hlen : (images.length == 0) = false := by
          rw [beq_eq_false_iff_ne]
          intro h0
          exact he (List.length_eq_zero.mp h0)
        rw [hlen, featuredCount_buildNewImages_false]
        have h1 : featuredCount images = 1 := by
          rw [hinv, if_neg he]
        rw [h1]
        rw [if_neg (fun hcontra => he (List.append_eq_nil.mp hcontra).1)]

/-- Removal preserves the healthy-collection invariant. -/
theorem goodState_remove (images : List MediaItem) (id : String)
    (hg : GoodState images) : GoodState (removeImage images id) := by
  obtain ⟨hnd, hinv⟩ := hg
  cases hfind : images.find? (fun img => img.id == id) with
  | none =>
      have hall : ∀ x ∈ images, (x.id == id) = false := by
        rw [List.find?_eq_none] at hfind
        intro x hx
        have h := hfind x hx
        simpa using h
      have hfilter : images.filter (fun img => img.id != id) = images := by
        rw [List.filter_eq_self]
        intro x hx
        have h := hall x hx
        simp only [beq_eq_false_iff_ne, ne_eq] at h
        simpa using h
      have hres : removeImage images id = images := by
        simp [removeImage, hfind, hfilter]
      rw [hres]
      exact ⟨hnd, hinv⟩
  | some img =>
      have hpb := List.find?_some hfind
      have hid : img.id = id := by simpa using hpb
      obtain ⟨l1, l2, hsplit, hl1⟩ := find_decomp _ images img hfind
      subst hsplit
      have hl1' : ∀ x ∈ l1, x.id ≠ img.id := by
        intro x hx heq
        have hb : (x.id == id) = true := by
          rw [heq, hid]
          exact beq_self_eq_true id
        rw [hl1 x hx] at hb
        cases hb
      have hl2' : ∀ x ∈ l2, x.id ≠ img.id := by
        intro x hx heq
        rw [idsOf_append] at hnd
        have hcons : (idsOf (img :: l2)).Nodup := (List.nodup_append.mp hnd).2.1
        have hnotin : img.id ∉ idsOf l2 := by
          simp only [idsOf, List.map_cons, List.nodup_cons] at hcons
          exact fun hmm => hcons.1 hmm
        exact hnotin (heq ▸ List.mem_map_of_mem MediaItem.id hx)
      have hfilter : (l1 ++ img :: l2).filter (fun x => x.id != id) = l1 ++ l2 := by
        rw [← hid]
        exact filter_decomp l1 l2 img hl1' hl2'
      have hnodup2 : (idsOf (l1 ++ l2)).Nodup := by
        have hsub : (idsOf (l1 ++ l2)).Sublist (idsOf (l1 ++ img :: l2)) := by
          unfold idsOf
          exact List.Sublist.map MediaItem.id
            (List.Sublist.append_left (List.sublist_cons_self img l2) l1)
        exact List.Sublist.nodup hsub hnd
      have hc1 : featuredCount (l1 ++ img :: l2) = 1 := by
        rw [hinv, if_neg (by simp)]
      by_cases hf : img.isFeatured = true
      · cases hrem : l1 ++ l2 with
        | nil =>
            have hres : removeImage (l1 ++ img :: l2) id = [] := by
              simp [removeImage, hfind, hfilter, hrem]
            rw [hres]
            exact ⟨by simp [idsOf], by simp [FeaturedInv, featuredCount]⟩
        | cons a t =>
            have hres : removeImage (l1 ++ img :: l2) id = promoteFirst (a :: t) := by
              simp [removeImage, hfind, hfilter, hrem, hf, promoteFirst]
            rw [hres]
            have hc0 : featuredCount (a :: t) = 0 := by
              rw [← hrem, featuredCount_append]
              have hca := featuredCount_append l1 (img :: l2)
              rw [featuredCount_cons, hf, if_pos rfl] at hca
              omega
            refine ⟨?_, ?_⟩
            · rw [idsOf_promoteFirst, ← hrem]
              exact hnodup2
            · unfold FeaturedInv
              rw [featuredCount_promoteFirst a t hc0]
              rw [if_neg (by simp [promoteFirst])]
      · have hf2 : img.isFeatured = false := by
          cases hv : img.isFeatured with
          | false => rfl
          | true => exact absurd hv hf
        have hres : removeImage (l1 ++ img :: l2) id = l1 ++ l2 := by
          simp [removeImage, hfind, hfilter, hf2]
        rw [hres]
        have hcc : featuredCount (l1 ++ l2) = 1 := by
          have hca := featuredCount_append l1 (img :: l2)
          rw [featuredCount_cons, hf2] at hca
          simp only [Bool.false_eq_true, if_false, Nat.zero_add] at hca
          rw [featuredCount_append]
          omega
        refine ⟨hnodup2, ?_⟩
        unfold FeaturedInv
        rw [hcc]
        rw [if_neg ?_]
        intro hnil
        rw [hnil] at hcc
        simp [featuredCount] at hcc

/-- A set-featured call naming a present id preserves the
healthy-collection invariant. -/
theorem goodState_setFeatured (images : List MediaItem) (id : String)
    (hg : GoodState images) (hmem : id ∈ idsOf images) :
    GoodState (setFeaturedImage images id) := by
  obtain ⟨hnd, _⟩ := hg
  have hids : idsOf (setFeaturedImage images id) = idsOf images := by
    unfold idsOf setFeaturedImage
    rw [List.map_map]
    apply List.map_congr_left
    intro p _
    rfl
  refine ⟨hids ▸ hnd, ?_⟩
  unfold FeaturedInv
  rw [featuredCount_setFeatured]
  have hcount : (images.filter (fun img => img.id == id)).length
      = (idsOf images).count id := by
    unfold idsOf
    rw [List.count, List.countP_map, ← List.countP_eq_length_filter]
    rfl
  rw [hcount, List.count_eq_one_of_mem hnd hmem]
  have hne : images ≠ [] := by
    intro hcontra
    rw [hcontra] at hmem
    cases hmem
  rw [if_neg ?_]
  intro hcontra
  have hc := congrArg List.length hcontra
  simp [setFeaturedImage] at hc
  exact hne hc

/-- Every well-guarded operation sequence preserves the
healthy-collection invariant. -/
theorem goodState_ops (maxImages maxFileSize : Nat) :
    ∀ (ops : List ManagerOp) (images : List MediaItem),
      GoodState images → opsOk maxImages maxFileSize ops images →
      GoodState (applyOps maxImages maxFileSize ops images) := by
  intro ops
  induction ops with
  | nil => intro images hg _; exact hg
  | cons op rest ih =>
      intro images hg hok
      obtain ⟨h1, h2⟩ := hok
      have hstep : GoodState (applyOp maxImages maxFileSize op images) := by
        cases op with
        | add files mkId mkUrl =>
            obtain ⟨hinj, hfresh⟩ := h1
            exact goodState_add maxImages maxFileSize mkId mkUrl images files
              hg hinj hfresh
        | remove id => exact goodState_remove images id hg
        | setFeatured id => exact goodState_setFeatured images id hg h1
      simpa [applyOps, List.foldl_cons] using ih _ hstep h2

/-- C1 counterexample: from the empty collection, an addFiles of one
valid file followed by setFeatured with an id not present in the
collection leaves a non-empty collection with zero featured entries, so
the claimed invariant fails for this operation sequence. -/
theorem featured_invariant_counterexample :
    applyOps 10 5
        [ManagerOp.add [testPng] idGen urlGen, ManagerOp.setFeatured "zzz"] [] ≠ []
    ∧ featuredCount (applyOps 10 5
        [ManagerOp.add [testPng] idGen urlGen, ManagerOp.setFeatured "zzz"] []) = 0 := by
  decide

/-- C1 (amended): starting from the empty collection, after any sequence
of addFiles, remove and setFeatured operations in which each addFiles
call draws fresh distinct ids and each setFeatured call names an id
present at that moment, the resulting collection has exactly one featured
entry when non-empty and zero when empty. -/
theorem featured_invariant (maxImages maxFileSize : Nat)
    (ops : List ManagerOp) (hok : opsOk maxImages maxFileSize ops []) :
    FeaturedInv (applyOps maxImages maxFileSize ops []) :=
  (goodState_ops maxImages maxFileSize ops []
    ⟨by simp [idsOf], by simp [FeaturedInv, featuredCount]⟩ hok).2

/-- Witness for C1 on a concrete one-add sequence. -/
theorem featured_invariant_witness :
    opsOk 10 5 [ManagerOp.add [testPng] idGen urlGen] []
    ∧ FeaturedInv (applyOps 10 5 [ManagerOp.add [testPng] idGen urlGen] []) := by
  have hok : opsOk 10 5 [ManagerOp.add [testPng] idGen urlGen] [] := by
    refine ⟨⟨?_, ?_⟩, trivial⟩
    · intro a b hab
      have h := congrArg (fun s => s.data.length) hab
      simpa [idGen] using h
    · intro n
      simp [idsOf]
  exact ⟨hok, featured_invariant 10 5 [ManagerOp.add [testPng] idGen urlGen] hok⟩
